import Mathlib

/-!
Shallow embedding of the tcp-broadcast server (src/src/main.rs).

The program is a single-threaded tokio event loop over two co-indexed maps:
`writers : HashMap<u16, BufWriter<OwnedWriteHalf>>` (client id to write sink)
and `inputs : StreamMap<u16, LinesStream<..>>` (client id to read source).
We embed both maps as association lists from client ids (Nat) to opaque
capability tokens (Nat): the token stands for the concrete sink or source,
so that replacement on duplicate keys is observable.  I/O success and
failure of each write/flush is an environment choice, passed in as Boolean
oracles; the wire operations the code attempts are recorded in a trace.

One point needs library semantics: tokio StreamMap removes an inner stream
from the map as soon as that stream completes (yields None), without
emitting any item for it.  A LinesStream completes exactly at end-of-stream
of the underlying reader.  So when a read side hits EOF, the id disappears
from `inputs` silently while `writers` is untouched (main.rs has no branch
for it; its lines 98-101 only see `None` once the whole map is empty).
The event `Event.readEof` below models this library-level removal.
-/

namespace TB

/-- One wire operation attempted on the write sink of some client.
A `write id msg` records an attempt to write the bytes of `msg` to the
sink registered under `id`; a `flush id` records an explicit flush. -/
inductive Op where
  | write (id : Nat) (msg : String)
  | flush (id : Nat)
deriving DecidableEq, Repr

/-- The client id an operation is directed at. -/
def opTarget : Op → Nat
  | .write id _ => id
  | .flush id => id

/-- Whether an operation is directed at client `o`. -/
def targets (o : Nat) (op : Op) : Bool := opTarget op == o

/-- Association list from client id to an opaque capability token; embeds
both the writers HashMap and the inputs StreamMap of main.rs. -/
abbrev AList := List (Nat × Nat)

/-- Key lookup; embeds HashMap lookup (`writers.get_mut(&id)`, main.rs:81). -/
def lookupA (k : Nat) : AList → Option Nat
  | [] => none
  | (q, v) :: t => if q = k then some v else lookupA k t

/-- Insertion; embeds `HashMap::insert` / `StreamMap::insert`
(main.rs:133-134): when the key is already present the stored value is
replaced, otherwise the new entry is appended. -/
def insertA (k v : Nat) : AList → AList
  | [] => [(k, v)]
  | (q, w) :: t => if q = k then (k, v) :: t else (q, w) :: insertA k v t

/-- Removal; embeds `HashMap::remove` / `StreamMap::remove`
(main.rs:76-77, 84-85, 88-89, 95-96): the entry for the key, if present,
is dropped; removing an absent key changes nothing. -/
def removeA (k : Nat) : AList → AList
  | [] => []
  | (q, v) :: t => if q = k then removeA k t else (q, v) :: removeA k t

/-- The key set (as a list) of an association list. -/
def keysOf (l : AList) : List Nat := l.map Prod.fst

/-- The two co-indexed registry maps of main.rs:28-31:
`writers` (id to write sink) and `inputs` (id to line stream). -/
structure Registry where
  writers : AList
  inputs : AList
deriving DecidableEq, Repr

/-- The empty registry the loop starts with (main.rs:28-31). -/
def initRegistry : Registry := ⟨[], []⟩

/-- Wire text of a broadcast message, from main.rs:61:
`format!("MESSAGE:{client_id} {line}\n")`. -/
def messageLine (senderId : Nat) (text : String) : String :=
  "MESSAGE:" ++ toString senderId ++ " " ++ text ++ "\n"

/-- Wire text of the acknowledgement, from main.rs:82: `b"ACK:MESSAGE\n"`. -/
def ackLine : String := "ACK:MESSAGE\n"

/-- Wire text of the login notice, from main.rs:130:
`format!("LOGIN:{client_id}\n")`. -/
def loginLine (id : Nat) : String := "LOGIN:" ++ toString id ++ "\n"

/-- The list of recipients recorded as failed by the broadcast loop of
main.rs:60-73, in iteration order over the writers map.  The sender is
skipped (main.rs:63).  A recipient is pushed onto `dead` when its write
fails (main.rs:64-67) or, the write having succeeded, its flush fails
(main.rs:69-72).  `wf`/`ff` are the environment oracles saying whether the
write resp. flush to a given id fails. -/
def deliverDead (sender : Nat) (wf ff : Nat → Bool) : AList → List Nat
  | [] => []
  | (oid, _) :: rest =>
    if oid = sender then deliverDead sender wf ff rest
    else if wf oid then oid :: deliverDead sender wf ff rest
    else if ff oid then oid :: deliverDead sender wf ff rest
    else deliverDead sender wf ff rest

/-- The trace of wire operations attempted by the broadcast loop of
main.rs:60-73, in iteration order.  For each non-sender entry one write of
`msg` is attempted; when the write fails the loop `continue`s, so no flush
is attempted on that recipient; otherwise a flush is attempted. -/
def deliverOps (sender : Nat) (msg : String) (wf ff : Nat → Bool) : AList → List Op
  | [] => []
  | (oid, _) :: rest =>
    if oid = sender then deliverOps sender msg wf ff rest
    else if wf oid then Op.write oid msg :: deliverOps sender msg wf ff rest
    else Op.write oid msg :: Op.flush oid :: deliverOps sender msg wf ff rest

/-- Removal of the failed recipients from both maps, from main.rs:74-78:
`for id in dead { writers.remove(&id); inputs.remove(&id); }`. -/
def removeDead (dead : List Nat) (reg : Registry) : Registry :=
  dead.foldl (fun r id => ⟨removeA id r.writers, removeA id r.inputs⟩) reg

/-- The acknowledgement step, from main.rs:80-91.  If the sender is still
in the writers map, an `ACK:MESSAGE` write is attempted; on write failure
(`awf`) the sender is removed from both maps and no flush is attempted; on
flush failure (`aff`) the sender is likewise removed from both maps.  If
the sender is absent nothing is attempted. -/
def ackStep (c : Nat) (awf aff : Bool) (reg : Registry) : Registry × List Op :=
  match lookupA c reg.writers with
  | none => (reg, [])
  | some _ =>
    if awf then (⟨removeA c reg.writers, removeA c reg.inputs⟩, [Op.write c ackLine])
    else if aff then (⟨removeA c reg.writers, removeA c reg.inputs⟩,
      [Op.write c ackLine, Op.flush c])
    else (reg, [Op.write c ackLine, Op.flush c])

/-- The handler of a successful line event `(c, Ok(text))`, main.rs:55-91:
broadcast to every other writer, remove the failed recipients from both
maps, then attempt the acknowledgement to the sender. -/
def lineStep (reg : Registry) (c : Nat) (text : String) (wf ff : Nat → Bool)
    (awf aff : Bool) : Registry × List Op :=
  let msg := messageLine c text
  let dead := deliverDead c wf ff reg.writers
  let reg1 := removeDead dead reg
  ((ackStep c awf aff reg1).1, deliverOps c msg wf ff reg.writers ++ (ackStep c awf aff reg1).2)

/-- The handler of a read error `(c, Err(e))`, main.rs:93-97: the client is
removed from both maps; nothing is written to anyone. -/
def readErrStep (reg : Registry) (c : Nat) : Registry :=
  ⟨removeA c reg.writers, removeA c reg.inputs⟩

/-- The accept handler `handle_new_client`, main.rs:110-137.  `peerFail`
models `stream.peer_addr()` failing (main.rs:115, early return before any
write); `lwf`/`lff` model failure of the login write (main.rs:130) resp.
flush (main.rs:131), each an early return via `?` before the inserts.
Only when the login notice is written and flushed successfully are the
write sink and the line stream inserted into the two maps
(main.rs:133-134). -/
def handle_new_client (reg : Registry) (id wtok rtok : Nat)
    (peerFail lwf lff : Bool) : Registry × List Op :=
  if peerFail then (reg, [])
  else if lwf then (reg, [Op.write id (loginLine id)])
  else if lff then (reg, [Op.write id (loginLine id), Op.flush id])
  else (⟨insertA id wtok reg.writers, insertA id rtok reg.inputs⟩,
    [Op.write id (loginLine id), Op.flush id])

/-- One readiness event observed by the `tokio::select!` loop of
main.rs:33-104, plus the StreamMap-internal end-of-stream removal.
  * `accept id wtok rtok pf lwf lff` — `incoming.next()` yielded
    `Some(Ok(stream))` with peer port `id` (main.rs:38-42);
  * `acceptErr` — `Some(Err(e))` (main.rs:43-45);
  * `acceptEnd` — `None`: the listener stream is exhausted (main.rs:46-48);
  * `line c text wf ff awf aff` — `inputs.next()` yielded
    `Some((c, Ok(text)))` (main.rs:55);
  * `readErr c` — `Some((c, Err(e)))` (main.rs:93);
  * `readEof c` — the line stream of `c` completed (EOF); tokio StreamMap
    drops it from the map without yielding an item, so only `inputs`
    changes;
  * `inputsNone` — `inputs.next()` yielded `None` (empty map),
    main.rs:98-101: nothing happens. -/
inductive Event where
  | accept (id wtok rtok : Nat) (peerFail lwf lff : Bool)
  | acceptErr
  | acceptEnd
  | line (c : Nat) (text : String) (wf ff : Nat → Bool) (awf aff : Bool)
  | readErr (c : Nat)
  | readEof (c : Nat)
  | inputsNone

/-- Result of processing one event: the registry afterwards, the wire
operations attempted, and whether the loop exits (`break`). -/
structure StepResult where
  reg : Registry
  ops : List Op
  halt : Bool

/-- One iteration of the event loop of main.rs:33-105.  The loop `break`s
only in the `None` arm of the accept branch (main.rs:46-48); every other
arm falls through to the next iteration. -/
def step (reg : Registry) : Event → StepResult
  | .accept id wtok rtok pf lwf lff =>
    ⟨(handle_new_client reg id wtok rtok pf lwf lff).1,
      (handle_new_client reg id wtok rtok pf lwf lff).2, false⟩
  | .acceptErr => ⟨reg, [], false⟩
  | .acceptEnd => ⟨reg, [], true⟩
  | .line c text wf ff awf aff =>
    ⟨(lineStep reg c text wf ff awf aff).1, (lineStep reg c text wf ff awf aff).2, false⟩
  | .readErr c => ⟨readErrStep reg c, [], false⟩
  | .readEof c => ⟨⟨reg.writers, removeA c reg.inputs⟩, [], false⟩
  | .inputsNone => ⟨reg, [], false⟩

/-- The registry reached after processing a sequence of events. -/
def runFrom (reg : Registry) : List Event → Registry
  | [] => reg
  | e :: es => runFrom (step reg e).reg es

/-- `u16::from_str` as invoked by `s.parse::<u16>()` (main.rs:17): an
optional leading `+`, then at least one ASCII digit, and the decimal value
must fit in 16 bits; anything else is a parse error. -/
def parseU16 (s : String) : Option Nat :=
  let cs := match s.data with
    | '+' :: rest => rest
    | cs => cs
  if cs = [] then none
  else if cs.all (fun c => c.isDigit) then
    let n := cs.foldl (fun acc c => acc * 10 + (c.toNat - 48)) 0
    if n < 65536 then some n else none
  else none

/-- Port selection, main.rs:15-18: the first command-line argument parsed
as a u16 when present and parseable, otherwise 8888. -/
def choosePort (arg : Option String) : Nat :=
  (arg.bind parseU16).getD 8888

/-- The one-sided registry invariant actually maintained by the code:
every id with a registered read source also has a registered write sink. -/
def InputsSubset (reg : Registry) : Prop :=
  ∀ id, id ∈ keysOf reg.inputs → id ∈ keysOf reg.writers

/-- The two-sided invariant claimed by the design document: an id is in
both maps or in neither. -/
def BothOrNeither (reg : Registry) : Prop :=
  ∀ id, id ∈ keysOf reg.writers ↔ id ∈ keysOf reg.inputs

/-- A concrete run: two clients log in successfully, then the read side of
client 2 reaches end-of-stream (the client closed the connection without a
read error). -/
def eofScenario : List Event :=
  [Event.accept 1 10 11 false false false,
   Event.accept 2 20 21 false false false,
   Event.readEof 2]

@[simp]
theorem keysOf_nil : keysOf [] = [] := rfl

@[simp]
theorem keysOf_cons (q v : Nat) (t : AList) : keysOf ((q, v) :: t) = q :: keysOf t := rfl

theorem mem_keysOf_removeA {a k : Nat} {l : AList} :
    a ∈ keysOf (removeA k l) ↔ a ∈ keysOf l ∧ a ≠ k := by
  induction l with
  | nil => simp [removeA]
  | cons p t ih =>
    obtain ⟨q, v⟩ := p
    by_cases hq : q = k
    · subst hq
      simp only [removeA, if_pos rfl, keysOf_cons, List.mem_cons, ih]
      tauto
    · simp only [removeA, if_neg hq, keysOf_cons, List.mem_cons, ih]
      constructor
      · rintro (rfl | ⟨h1, h2⟩)
        · exact ⟨Or.inl rfl, hq⟩
        · exact ⟨Or.inr h1, h2⟩
      · rintro ⟨rfl | h1, h2⟩
        · exact Or.inl rfl
        · exact Or.inr ⟨h1, h2⟩

theorem mem_keysOf_insertA {a k v : Nat} {l : AList} :
    a ∈ keysOf (insertA k v l) ↔ a = k ∨ a ∈ keysOf l := by
  induction l with
  | nil => simp [insertA]
  | cons p t ih =>
    obtain ⟨q, w⟩ := p
    by_cases hq : q = k
    · subst hq
      simp [insertA]
    · simp only [insertA, if_neg hq, keysOf_cons, List.mem_cons, ih]
      tauto

theorem keysOf_insertA_of_mem {k : Nat} (v : Nat) {l : AList} (h : k ∈ keysOf l) :
    keysOf (insertA k v l) = keysOf l := by
  induction l with
  | nil => simp at h
  | cons p t ih =>
    obtain ⟨q, w⟩ := p
    by_cases hq : q = k
    · subst hq
      simp [insertA]
    · simp only [keysOf_cons, List.mem_cons] at h
      rcases h with rfl | h
      · exact absurd rfl hq
      · simp only [insertA, if_neg hq, keysOf_cons, ih h]

theorem lookupA_insertA_self (k v : Nat) (l : AList) :
    lookupA k (insertA k v l) = some v := by
  induction l with
  | nil => simp [insertA, lookupA]
  | cons p t ih =>
    obtain ⟨q, w⟩ := p
    by_cases hq : q = k
    · subst hq
      simp [insertA, lookupA]
    · simp only [insertA, if_neg hq, lookupA, if_neg hq, ih]

theorem lookupA_isSome_of_mem {k : Nat} {l : AList} (h : k ∈ keysOf l) :
    (lookupA k l).isSome = true := by
  induction l with
  | nil => simp at h
  | cons p t ih =>
    obtain ⟨q, w⟩ := p
    by_cases hq : q = k
    · simp [lookupA, hq]
    · simp only [keysOf_cons, List.mem_cons] at h
      rcases h with rfl | h
      · exact absurd rfl hq
      · simp [lookupA, hq, ih h]

theorem lookupA_eq_none_of_notMem {k : Nat} {l : AList} (h : k ∉ keysOf l) :
    lookupA k l = none := by
  induction l with
  | nil => rfl
  | cons p t ih =>
    obtain ⟨q, w⟩ := p
    simp only [keysOf_cons, List.mem_cons] at h
    push_neg at h
    have hq : q ≠ k := fun hqk => h.1 hqk.symm
    simp [lookupA, hq, ih h.2]

theorem mem_of_lookupA_isSome {k : Nat} {l : AList} (h : (lookupA k l).isSome = true) :
    k ∈ keysOf l := by
  by_contra hn
  rw [lookupA_eq_none_of_notMem hn] at h
  simp at h

theorem nodup_keysOf_removeA {k : Nat} {l : AList} (h : (keysOf l).Nodup) :
    (keysOf (removeA k l)).Nodup := by
  induction l with
  | nil => simp [removeA]
  | cons p t ih =>
    obtain ⟨q, v⟩ := p
    simp only [keysOf_cons, List.nodup_cons] at h
    by_cases hq : q = k
    · simp only [removeA, if_pos hq]; exact ih h.2
    · simp only [removeA, if_neg hq, keysOf_cons, List.nodup_cons]
      exact ⟨fun hc => h.1 (mem_keysOf_removeA.mp hc).1, ih h.2⟩

theorem nodup_keysOf_insertA {k v : Nat} {l : AList} (h : (keysOf l).Nodup) :
    (keysOf (insertA k v l)).Nodup := by
  induction l with
  | nil => simp [insertA]
  | cons p t ih =>
    obtain ⟨q, w⟩ := p
    simp only [keysOf_cons, List.nodup_cons] at h
    by_cases hq : q = k
    · subst hq
      simp [insertA, List.nodup_cons]
      exact h
    · simp only [insertA, if_neg hq, keysOf_cons, List.nodup_cons]
      refine ⟨fun hc => ?_, ih h.2⟩
      rcases mem_keysOf_insertA.mp hc with rfl | hc
      · exact hq rfl
      · exact h.1 hc

theorem removeDead_nil (reg : Registry) : removeDead [] reg = reg := rfl

theorem removeDead_cons (d : Nat) (ds : List Nat) (reg : Registry) :
    removeDead (d :: ds) reg =
      removeDead ds ⟨removeA d reg.writers, removeA d reg.inputs⟩ := rfl

theorem mem_keysOf_removeDead_writers {a : Nat} {dead : List Nat} {reg : Registry} :
    a ∈ keysOf (removeDead dead reg).writers ↔ a ∈ keysOf reg.writers ∧ a ∉ dead := by
  induction dead generalizing reg with
  | nil => simp [removeDead_nil]
  | cons d ds ih =>
    rw [removeDead_cons, ih]
    simp only [mem_keysOf_removeA, List.mem_cons]
    tauto

theorem mem_keysOf_removeDead_inputs {a : Nat} {dead : List Nat} {reg : Registry} :
    a ∈ keysOf (removeDead dead reg).inputs ↔ a ∈ keysOf reg.inputs ∧ a ∉ dead := by
  induction dead generalizing reg with
  | nil => simp [removeDead_nil]
  | cons d ds ih =>
    rw [removeDead_cons, ih]
    simp only [mem_keysOf_removeA, List.mem_cons]
    tauto

theorem deliverDead_nil (s : Nat) (wf ff : Nat → Bool) : deliverDead s wf ff [] = [] := rfl

theorem deliverDead_cons (s q v : Nat) (wf ff : Nat → Bool) (t : AList) :
    deliverDead s wf ff ((q, v) :: t) =
      if q = s then deliverDead s wf ff t
      else if wf q then q :: deliverDead s wf ff t
      else if ff q then q :: deliverDead s wf ff t
      else deliverDead s wf ff t := rfl

theorem deliverOps_nil (s : Nat) (msg : String) (wf ff : Nat → Bool) :
    deliverOps s msg wf ff [] = [] := rfl

theorem deliverOps_cons (s : Nat) (msg : String) (q v : Nat) (wf ff : Nat → Bool) (t : AList) :
    deliverOps s msg wf ff ((q, v) :: t) =
      if q = s then deliverOps s msg wf ff t
      else if wf q then Op.write q msg :: deliverOps s msg wf ff t
      else Op.write q msg :: Op.flush q :: deliverOps s msg wf ff t := rfl

theorem mem_deliverDead {o s : Nat} {wf ff : Nat → Bool} {l : AList} :
    o ∈ deliverDead s wf ff l ↔ o ∈ keysOf l ∧ o ≠ s ∧ (wf o || ff o) = true := by
  induction l with
  | nil => simp [deliverDead_nil]
  | cons p t ih =>
    obtain ⟨q, v⟩ := p
    rw [deliverDead_cons]
    simp only [keysOf_cons, List.mem_cons]
    by_cases hq : q = s
    · rw [if_pos hq, ih]
      subst hq
      constructor
      · rintro ⟨h1, h2, h3⟩; exact ⟨Or.inr h1, h2, h3⟩
      · rintro ⟨rfl | h1, h2, h3⟩
        · exact absurd rfl h2
        · exact ⟨h1, h2, h3⟩
    · rw [if_neg hq]
      by_cases hw : wf q = true
      · rw [if_pos hw]
        simp only [List.mem_cons, ih]
        constructor
        · rintro (rfl | ⟨h1, h2, h3⟩)
          · exact ⟨Or.inl rfl, hq, by simp [hw]⟩
          · exact ⟨Or.inr h1, h2, h3⟩
        · rintro ⟨rfl | h1, h2, h3⟩
          · exact Or.inl rfl
          · exact Or.inr ⟨h1, h2, h3⟩
      · rw [if_neg hw]
        by_cases hf : ff q = true
        · rw [if_pos hf]
          simp only [List.mem_cons, ih]
          constructor
          · rintro (rfl | ⟨h1, h2, h3⟩)
            · exact ⟨Or.inl rfl, hq, by simp [hf]⟩
            · exact ⟨Or.inr h1, h2, h3⟩
          · rintro ⟨rfl | h1, h2, h3⟩
            · exact Or.inl rfl
            · exact Or.inr ⟨h1, h2, h3⟩
        · rw [if_neg hf, ih]
          constructor
          · rintro ⟨h1, h2, h3⟩; exact ⟨Or.inr h1, h2, h3⟩
          · rintro ⟨rfl | h1, h2, h3⟩
            · rw [Bool.or_eq_true] at h3
              rcases h3 with h3 | h3
              · exact absurd h3 hw
              · exact absurd h3 hf
            · exact ⟨h1, h2, h3⟩

theorem deliverOps_target {s : Nat} {msg : String} {wf ff : Nat → Bool} {l : AList} :
    ∀ op ∈ deliverOps s msg wf ff l, opTarget op ∈ keysOf l ∧ opTarget op ≠ s := by
  induction l with
  | nil => simp [deliverOps_nil]
  | cons p t ih =>
    obtain ⟨q, v⟩ := p
    intro op hop
    rw [deliverOps_cons] at hop
    simp only [keysOf_cons, List.mem_cons]
    by_cases hq : q = s
    · rw [if_pos hq] at hop
      rcases ih op hop with ⟨h1, h2⟩
      exact ⟨Or.inr h1, h2⟩
    · rw [if_neg hq] at hop
      by_cases hw : wf q = true
      · rw [if_pos hw] at hop
        rcases List.mem_cons.mp hop with rfl | hop
        · exact ⟨Or.inl rfl, hq⟩
        · rcases ih op hop with ⟨h1, h2⟩
          exact ⟨Or.inr h1, h2⟩
      · rw [if_neg hw] at hop
        rcases List.mem_cons.mp hop with rfl | hop
        · exact ⟨Or.inl rfl, hq⟩
        · rcases List.mem_cons.mp hop with rfl | hop
          · exact ⟨Or.inl rfl, hq⟩
          · rcases ih op hop with ⟨h1, h2⟩
            exact ⟨Or.inr h1, h2⟩

theorem count_deliverOps_write_zero_of_notMem {o s : Nat} {m msg : String}
    {wf ff : Nat → Bool} {l : AList} (ho : o ∉ keysOf l) :
    (deliverOps s msg wf ff l).count (Op.write o m) = 0 := by
  rw [List.count_eq_zero]
  intro hc
  exact ho (deliverOps_target _ hc).1

theorem count_deliverOps_write_sender {s : Nat} {m msg : String}
    {wf ff : Nat → Bool} {l : AList} :
    (deliverOps s msg wf ff l).count (Op.write s m) = 0 := by
  rw [List.count_eq_zero]
  intro hc
  exact (deliverOps_target _ hc).2 rfl

theorem count_deliverOps_write_one {o s : Nat} {msg : String} {wf ff : Nat → Bool}
    {l : AList} (hnd : (keysOf l).Nodup) (ho : o ∈ keysOf l) (hos : o ≠ s) :
    (deliverOps s msg wf ff l).count (Op.write o msg) = 1 := by
  induction l with
  | nil => simp at ho
  | cons p t ih =>
    obtain ⟨q, v⟩ := p
    simp only [keysOf_cons, List.nodup_cons] at hnd
    simp only [keysOf_cons, List.mem_cons] at ho
    rw [deliverOps_cons]
    by_cases hq : q = s
    · subst hq
      rcases ho with rfl | ho
      · exact absurd rfl hos
      · rw [if_pos rfl]
        exact ih hnd.2 ho
    · rw [if_neg hq]
      rcases ho with rfl | ho
      · have hz : (deliverOps s msg wf ff t).count (Op.write o msg) = 0 :=
          count_deliverOps_write_zero_of_notMem hnd.1
        by_cases hw : wf o = true
        · rw [if_pos hw]
          simp [List.count_cons, hz]
        · rw [if_neg hw]
          simp [List.count_cons, hz]
      · have hoq : o ≠ q := fun h => hnd.1 (h ▸ ho)
        have hrest := ih hnd.2 ho
        by_cases hw : wf q = true
        · rw [if_pos hw]
          simp [List.count_cons, hrest, hoq]
        · rw [if_neg hw]
          simp [List.count_cons, hrest, hoq]

theorem write_mem_deliverOps {o s : Nat} {msg : String} {wf ff : Nat → Bool}
    {l : AList} (ho : o ∈ keysOf l) (hos : o ≠ s) :
    Op.write o msg ∈ deliverOps s msg wf ff l := by
  induction l with
  | nil => simp at ho
  | cons p t ih =>
    obtain ⟨q, v⟩ := p
    simp only [keysOf_cons, List.mem_cons] at ho
    rw [deliverOps_cons]
    by_cases hq : q = s
    · subst hq
      rcases ho with rfl | ho
      · exact absurd rfl hos
      · rw [if_pos rfl]
        exact ih ho
    · rw [if_neg hq]
      rcases ho with rfl | ho
      · by_cases hw : wf o = true
        · rw [if_pos hw]; exact List.mem_cons_self _ _
        · rw [if_neg hw]; exact List.mem_cons_self _ _
      · by_cases hw : wf q = true
        · rw [if_pos hw]; exact List.mem_cons_of_mem _ (ih ho)
        · rw [if_neg hw]
          exact List.mem_cons_of_mem _ (List.mem_cons_of_mem _ (ih ho))

theorem targets_write_self (o : Nat) (m : String) : targets o (Op.write o m) = true := by
  simp [targets, opTarget]

theorem targets_flush_self (o : Nat) : targets o (Op.flush o) = true := by
  simp [targets, opTarget]

theorem targets_write_ne {o q : Nat} (m : String) (h : q ≠ o) :
    targets o (Op.write q m) = false := by
  simp [targets, opTarget, h]

theorem targets_flush_ne {o q : Nat} (h : q ≠ o) : targets o (Op.flush q) = false := by
  simp [targets, opTarget, h]

theorem filter_deliverOps_nil_of_notMem {o s : Nat} {msg : String}
    {wf ff : Nat → Bool} {l : AList} (ho : o ∉ keysOf l) :
    (deliverOps s msg wf ff l).filter (targets o) = [] := by
  rw [List.filter_eq_nil_iff]
  intro op hop
  simp only [targets, beq_iff_eq]
  intro h
  exact ho (h ▸ (deliverOps_target op hop).1)

theorem filter_deliverOps {o s : Nat} {msg : String} {wf ff : Nat → Bool}
    {l : AList} (hnd : (keysOf l).Nodup) (ho : o ∈ keysOf l) (hos : o ≠ s) :
    (deliverOps s msg wf ff l).filter (targets o) =
      if wf o then [Op.write o msg] else [Op.write o msg, Op.flush o] := by
  induction l with
  | nil => simp at ho
  | cons p t ih =>
    obtain ⟨q, v⟩ := p
    simp only [keysOf_cons, List.nodup_cons] at hnd
    simp only [keysOf_cons, List.mem_cons] at ho
    rw [deliverOps_cons]
    by_cases hq : q = s
    · subst hq
      rcases ho with rfl | ho
      · exact absurd rfl hos
      · rw [if_pos rfl]
        exact ih hnd.2 ho
    · rw [if_neg hq]
      rcases ho with rfl | ho
      · have hz : (deliverOps s msg wf ff t).filter (targets o) = [] :=
          filter_deliverOps_nil_of_notMem hnd.1
        by_cases hw : wf o = true
        · rw [if_pos hw, if_pos hw, List.filter_cons, if_pos (targets_write_self o msg), hz]
        · rw [if_neg hw, if_neg hw, List.filter_cons, if_pos (targets_write_self o msg),
            List.filter_cons, if_pos (targets_flush_self o), hz]
      · have hoq : q ≠ o := fun h => hnd.1 (h ▸ ho)
        have hrest := ih hnd.2 ho
        by_cases hw : wf q = true
        · rw [if_pos hw, List.filter_cons, if_neg (by rw [targets_write_ne msg hoq]; simp),
            hrest]
        · rw [if_neg hw, List.filter_cons, if_neg (by rw [targets_write_ne msg hoq]; simp),
            List.filter_cons, if_neg (by rw [targets_flush_ne hoq]; simp), hrest]

theorem ackStep_ops_of_isSome {c : Nat} {awf aff : Bool} {reg : Registry}
    (h : (lookupA c reg.writers).isSome = true) :
    (ackStep c awf aff reg).2 =
      if awf then [Op.write c ackLine] else [Op.write c ackLine, Op.flush c] := by
  unfold ackStep
  cases hl : lookupA c reg.writers with
  | none => rw [hl] at h; simp at h
  | some w =>
    by_cases hawf : awf = true
    · simp [hawf]
    · by_cases haff : aff = true <;> simp [hawf, haff]

theorem ackStep_ops_of_none {c : Nat} {awf aff : Bool} {reg : Registry}
    (h : lookupA c reg.writers = none) :
    (ackStep c awf aff reg).2 = [] := by
  unfold ackStep
  rw [h]

theorem ackStep_fst_of_fail {c : Nat} {awf aff : Bool} {reg : Registry}
    (h : (lookupA c reg.writers).isSome = true) (hf : (awf || aff) = true) :
    (ackStep c awf aff reg).1 = ⟨removeA c reg.writers, removeA c reg.inputs⟩ := by
  unfold ackStep
  cases hl : lookupA c reg.writers with
  | none => rw [hl] at h; simp at h
  | some w =>
    rw [Bool.or_eq_true] at hf
    by_cases hawf : awf = true
    · simp [hawf]
    · rcases hf with hf | hf
      · exact absurd hf hawf
      · simp [hawf, hf]

theorem ackStep_fst_of_ok {c : Nat} {reg : Registry} :
    (ackStep c false false reg).1 = reg := by
  unfold ackStep
  cases hl : lookupA c reg.writers with
  | none => rfl
  | some w => simp

theorem ackStep_fst_of_none {c : Nat} {awf aff : Bool} {reg : Registry}
    (h : lookupA c reg.writers = none) :
    (ackStep c awf aff reg).1 = reg := by
  unfold ackStep
  rw [h]

theorem ackStep_target {c : Nat} {awf aff : Bool} {reg : Registry} :
    ∀ op ∈ (ackStep c awf aff reg).2, opTarget op = c := by
  intro op hop
  cases hl : lookupA c reg.writers with
  | none => rw [ackStep_ops_of_none hl] at hop; simp at hop
  | some w =>
    rw [ackStep_ops_of_isSome (by rw [hl]; rfl)] at hop
    by_cases hawf : awf = true
    · rw [if_pos hawf] at hop
      simp only [List.mem_singleton] at hop
      subst hop; rfl
    · rw [if_neg hawf] at hop
      rcases List.mem_cons.mp hop with rfl | hop
      · rfl
      · rcases List.mem_cons.mp hop with rfl | hop
        · rfl
        · simp at hop

theorem messageLine_ne_ackLine (c : Nat) (t : String) : messageLine c t ≠ ackLine := by
  intro h
  have hM : (messageLine c t).data.head? = some 'M' := rfl
  have hA : ackLine.data.head? = some 'A' := rfl
  rw [h, hA] at hM
  exact absurd hM (by decide)

theorem lineStep_fst (reg : Registry) (c : Nat) (text : String) (wf ff : Nat → Bool)
    (awf aff : Bool) :
    (lineStep reg c text wf ff awf aff).1 =
      (ackStep c awf aff (removeDead (deliverDead c wf ff reg.writers) reg)).1 := rfl

theorem lineStep_snd (reg : Registry) (c : Nat) (text : String) (wf ff : Nat → Bool)
    (awf aff : Bool) :
    (lineStep reg c text wf ff awf aff).2 =
      deliverOps c (messageLine c text) wf ff reg.writers ++
        (ackStep c awf aff (removeDead (deliverDead c wf ff reg.writers) reg)).2 := rfl

theorem ackStep_fst_cases (c : Nat) (awf aff : Bool) (reg : Registry) :
    (ackStep c awf aff reg).1 = reg ∨
    (ackStep c awf aff reg).1 = ⟨removeA c reg.writers, removeA c reg.inputs⟩ := by
  unfold ackStep
  cases lookupA c reg.writers with
  | none => exact Or.inl rfl
  | some w =>
    by_cases hawf : awf = true
    · right; simp [hawf]
    · by_cases haff : aff = true
      · right; simp [hawf, haff]
      · left; simp [hawf, haff]

theorem inputsSubset_removeBoth {reg : Registry} {c : Nat} (h : InputsSubset reg) :
    InputsSubset (⟨removeA c reg.writers, removeA c reg.inputs⟩ : Registry) := by
  intro a ha
  have ha2 := mem_keysOf_removeA.mp ha
  exact mem_keysOf_removeA.mpr ⟨h a ha2.1, ha2.2⟩

theorem inputsSubset_removeDead {dead : List Nat} {reg : Registry} (h : InputsSubset reg) :
    InputsSubset (removeDead dead reg) := by
  intro a ha
  have ha2 := mem_keysOf_removeDead_inputs.mp ha
  exact mem_keysOf_removeDead_writers.mpr ⟨h a ha2.1, ha2.2⟩

theorem inputsSubset_ackStep {c : Nat} {awf aff : Bool} {reg : Registry}
    (h : InputsSubset reg) : InputsSubset (ackStep c awf aff reg).1 := by
  rcases ackStep_fst_cases c awf aff reg with he | he <;> rw [he]
  · exact h
  · exact inputsSubset_removeBoth h

theorem inputsSubset_step {reg : Registry} {e : Event} (h : InputsSubset reg) :
    InputsSubset (step reg e).reg := by
  cases e with
  | accept id wtok rtok pf lwf lff =>
    show InputsSubset (handle_new_client reg id wtok rtok pf lwf lff).1
    unfold handle_new_client
    by_cases hpf : pf = true
    · rw [if_pos hpf]; exact h
    · rw [if_neg hpf]
      by_cases hlwf : lwf = true
      · rw [if_pos hlwf]; exact h
      · rw [if_neg hlwf]
        by_cases hlff : lff = true
        · rw [if_pos hlff]; exact h
        · rw [if_neg hlff]
          intro a ha
          rcases mem_keysOf_insertA.mp ha with rfl | ha2
          · exact mem_keysOf_insertA.mpr (Or.inl rfl)
          · exact mem_keysOf_insertA.mpr (Or.inr (h a ha2))
  | acceptErr => exact h
  | acceptEnd => exact h
  | line c text wf ff awf aff =>
    show InputsSubset (lineStep reg c text wf ff awf aff).1
    rw [lineStep_fst]
    exact inputsSubset_ackStep (inputsSubset_removeDead h)
  | readErr c =>
    show InputsSubset (readErrStep reg c)
    exact inputsSubset_removeBoth h
  | readEof c =>
    intro a ha
    have ha2 := mem_keysOf_removeA.mp ha
    exact h a ha2.1
  | inputsNone => exact h

/-- C8: the listen port is 8888 when no argument is given; the first
command-line argument overrides it exactly when it parses as an unsigned
16-bit number, whose value is then below 65536; an argument that does not
parse (non-numeric or out of range) falls back to 8888. -/
theorem claim_C8 :
    choosePort none = 8888 ∧
    (∀ s n, parseU16 s = some n → choosePort (some s) = n ∧ n < 65536) ∧
    (∀ s, parseU16 s = none → choosePort (some s) = 8888) := by
  refine ⟨rfl, ?_, ?_⟩
  · intro s n h
    refine ⟨by simp [choosePort, h], ?_⟩
    simp only [parseU16] at h
    split_ifs at h
    simp_all
  · intro s h
    simp [choosePort, h]

/-- Witness for C8 at the concrete arguments "9999" and "abc". -/
theorem claim_C8_witness :
    parseU16 "9999" = some 9999 ∧ choosePort (some "9999") = 9999 ∧
    parseU16 "abc" = none ∧ choosePort (some "abc") = 8888 :=
  ⟨by decide, (claim_C8.2.1 "9999" 9999 (by decide)).1, by decide,
    claim_C8.2.2 "abc" (by decide)⟩

/-- C9: one iteration of the event loop halts exactly when the connection
source is exhausted (`acceptEnd`); in every state, any other event,
including an accept error, leaves the loop running. -/
theorem claim_C9 : ∀ (reg : Registry) (e : Event),
    ((step reg e).halt = true ↔ e = Event.acceptEnd) ∧
    (step reg Event.acceptErr).halt = false := by
  intro reg e
  refine ⟨⟨fun h => ?_, fun h => ?_⟩, rfl⟩
  · cases e <;> first | rfl | simp [step] at h
  · subst h; rfl

/-- Witness for C9 at the empty registry. -/
theorem claim_C9_witness :
    (step initRegistry Event.acceptEnd).halt = true ∧
    (step initRegistry Event.acceptErr).halt = false :=
  ⟨(claim_C9 initRegistry Event.acceptEnd).1.mpr rfl,
    (claim_C9 initRegistry Event.acceptErr).2⟩

/-- C5: a new connection is inserted into the two maps only when the login
notice was written and flushed successfully; on a peer-address or login
failure the registry is unchanged (the connection is discarded), and the
login write is attempted at most once (no retry). -/
theorem claim_C5 : ∀ (reg : Registry) (id wtok rtok : Nat) (pf lwf lff : Bool),
    ((pf || lwf || lff) = true → (handle_new_client reg id wtok rtok pf lwf lff).1 = reg) ∧
    ((pf || lwf || lff) = false →
      (handle_new_client reg id wtok rtok pf lwf lff).1 =
        ⟨insertA id wtok reg.writers, insertA id rtok reg.inputs⟩ ∧
      (handle_new_client reg id wtok rtok pf lwf lff).2 =
        [Op.write id (loginLine id), Op.flush id]) ∧
    (handle_new_client reg id wtok rtok pf lwf lff).2.count (Op.write id (loginLine id)) ≤ 1 := by
  intro reg id wtok rtok pf lwf lff
  unfold handle_new_client
  by_cases hpf : pf = true
  · simp [hpf]
  · by_cases hlwf : lwf = true
    · simp [hpf, hlwf, List.count_cons]
    · by_cases hlff : lff = true
      · simp [hpf, hlwf, hlff, List.count_cons, List.count_nil]
      · simp [hpf, hlwf, hlff, List.count_cons, List.count_nil]

/-- Witness for C5: a successful login registers client 5 in both maps. -/
theorem claim_C5_witness :
    (false || false || false) = false ∧
    (handle_new_client initRegistry 5 50 51 false false false).1 =
      ⟨[(5, 50)], [(5, 51)]⟩ :=
  ⟨by decide, ((claim_C5 initRegistry 5 50 51 false false false).2.1 (by decide)).1⟩

/-- C7: registering a new client under an id already present replaces the
entry in both maps: lookups now yield the new sink and source, the key sets
are unchanged (so the old entry is unreachable), and registration always
proceeds (the success path is taken whether or not the id was present). -/
theorem claim_C7 : ∀ (reg : Registry) (id wold rold wnew rnew : Nat),
    lookupA id reg.writers = some wold →
    lookupA id reg.inputs = some rold →
    lookupA id (handle_new_client reg id wnew rnew false false false).1.writers = some wnew ∧
    lookupA id (handle_new_client reg id wnew rnew false false false).1.inputs = some rnew ∧
    keysOf (handle_new_client reg id wnew rnew false false false).1.writers =
      keysOf reg.writers ∧
    keysOf (handle_new_client reg id wnew rnew false false false).1.inputs =
      keysOf reg.inputs := by
  intro reg id wold rold wnew rnew hw hr
  have hmw : id ∈ keysOf reg.writers := mem_of_lookupA_isSome (by rw [hw]; rfl)
  have hmr : id ∈ keysOf reg.inputs := mem_of_lookupA_isSome (by rw [hr]; rfl)
  refine ⟨?_, ?_, ?_, ?_⟩
  · exact lookupA_insertA_self id wnew reg.writers
  · exact lookupA_insertA_self id rnew reg.inputs
  · exact keysOf_insertA_of_mem wnew hmw
  · exact keysOf_insertA_of_mem rnew hmr

/-- Witness for C7: re-registering id 7 replaces both tokens. -/
theorem claim_C7_witness :
    lookupA 7 (handle_new_client ⟨[(7, 1)], [(7, 2)]⟩ 7 10 20 false false false).1.writers =
      some 10 ∧
    lookupA 7 (handle_new_client ⟨[(7, 1)], [(7, 2)]⟩ 7 10 20 false false false).1.inputs =
      some 20 ∧
    keysOf (handle_new_client ⟨[(7, 1)], [(7, 2)]⟩ 7 10 20 false false false).1.writers = [7] :=
  have h := claim_C7 ⟨[(7, 1)], [(7, 2)]⟩ 7 1 2 10 20 (by decide) (by decide)
  ⟨h.1, h.2.1, by rw [h.2.2.1]; rfl⟩

/-- C1 fails as stated: in the reachable state after `eofScenario` (client
2 logged in, then its read side reached end-of-stream), id 2 is still in
the writers map but no longer in the inputs map, so the two mappings have
diverged between processed events. -/
theorem claim_C1_cex : ¬ BothOrNeither (runFrom initRegistry eofScenario) := by
  intro h
  exact absurd ((h 2).mp (by decide)) (by decide)

/-- C1 (amended): between processed events the mappings can diverge in one
direction only: every id in the read-source map is also in the write-sink
map, in every state reachable from the initial empty registry; an id can
remain in the write-sink map alone after its read source ends. -/
theorem claim_C1 : ∀ (es : List Event), InputsSubset (runFrom initRegistry es) := by
  have base : InputsSubset initRegistry := by
    intro a ha
    simp [initRegistry, keysOf] at ha
  suffices h : ∀ (es : List Event) (reg : Registry),
      InputsSubset reg → InputsSubset (runFrom reg es) by
    exact fun es => h es initRegistry base
  intro es
  induction es with
  | nil => exact fun reg h => h
  | cons e es ih => exact fun reg h => ih _ (inputsSubset_step h)

/-- Witness for C1 (amended) on the `eofScenario` run: id 1 has a read
source there, and the theorem puts it in the writers map. -/
theorem claim_C1_witness : 1 ∈ keysOf (runFrom initRegistry eofScenario).writers :=
  claim_C1 eofScenario 1 (by decide)

/-- C2 fails as stated for the end-of-stream half: after `eofScenario`,
the write sink of client 2 is still registered even though the read side
of client 2 reported end-of-stream, so client 2 was not removed from both
mappings. -/
theorem claim_C2_cex :
    (keysOf (runFrom initRegistry eofScenario).writers).contains 2 = true ∧
    (keysOf (runFrom initRegistry eofScenario).inputs).contains 2 = false := by
  decide

/-- C2 (amended): on a read or decoding error the client is removed from
both mappings, nothing is written to anyone, and the loop continues; on
end-of-stream only the read source disappears (the stream map drops the
completed stream), the write sink stays registered, nothing is written,
and the loop continues. -/
theorem claim_C2 : ∀ (reg : Registry) (c : Nat),
    ((step reg (Event.readErr c)).reg.writers = removeA c reg.writers ∧
      (step reg (Event.readErr c)).reg.inputs = removeA c reg.inputs ∧
      (keysOf (step reg (Event.readErr c)).reg.writers).contains c = false ∧
      (keysOf (step reg (Event.readErr c)).reg.inputs).contains c = false ∧
      (step reg (Event.readErr c)).ops = [] ∧
      (step reg (Event.readErr c)).halt = false) ∧
    ((step reg (Event.readEof c)).reg.writers = reg.writers ∧
      (step reg (Event.readEof c)).reg.inputs = removeA c reg.inputs ∧
      (step reg (Event.readEof c)).ops = [] ∧
      (step reg (Event.readEof c)).halt = false) := by
  intro reg c
  refine ⟨⟨rfl, rfl, ?_, ?_, rfl, rfl⟩, rfl, rfl, rfl, rfl⟩
  · rw [← Bool.not_eq_true, List.elem_iff]
    intro hc
    exact (mem_keysOf_removeA.mp hc).2 rfl
  · rw [← Bool.not_eq_true, List.elem_iff]
    intro hc
    exact (mem_keysOf_removeA.mp hc).2 rfl

/-- C10: every event handler preserves the one-sided invariant that the
read-source key set is contained in the write-sink key set, and under that
invariant a line-ready event for client `c` finds the write sink of `c`
present. -/
theorem claim_C10 : ∀ (reg : Registry) (e : Event), InputsSubset reg →
    InputsSubset (step reg e).reg ∧
    (∀ c, c ∈ keysOf reg.inputs → (lookupA c reg.writers).isSome = true) := by
  intro reg e h
  exact ⟨inputsSubset_step h, fun c hc => lookupA_isSome_of_mem (h c hc)⟩

/-- Witness for C10: a state where a writer has no input stream left still
satisfies the invariant, it is preserved across an EOF event, and the
line-ready client 1 finds its sink. -/
theorem claim_C10_witness :
    InputsSubset (step ⟨[(1, 10), (2, 20)], [(1, 11)]⟩ (Event.readEof 1)).reg ∧
    (lookupA 1 (⟨[(1, 10), (2, 20)], [(1, 11)]⟩ : Registry).writers).isSome = true :=
  have h := claim_C10 ⟨[(1, 10), (2, 20)], [(1, 11)]⟩ (Event.readEof 1)
    (by unfold InputsSubset; decide)
  ⟨h.1, h.2 1 (by decide)⟩

theorem mem_ackStep_snd {c : Nat} {awf aff : Bool} {reg : Registry} {op : Op}
    (h : op ∈ (ackStep c awf aff reg).2) :
    op = Op.write c ackLine ∨ op = Op.flush c := by
  cases hl : lookupA c reg.writers with
  | none => rw [ackStep_ops_of_none hl] at h; simp at h
  | some w =>
    rw [ackStep_ops_of_isSome (by rw [hl]; rfl)] at h
    by_cases hawf : awf = true
    · rw [if_pos hawf] at h
      simp only [List.mem_singleton] at h
      exact Or.inl h
    · rw [if_neg hawf] at h
      rcases List.mem_cons.mp h with rfl | h
      · exact Or.inl rfl
      · rcases List.mem_cons.mp h with rfl | h
        · exact Or.inr rfl
        · simp at h

theorem count_ackStep_write_ne {c o : Nat} {m : String} {awf aff : Bool} {reg : Registry}
    (hne : Op.write o m ≠ Op.write c ackLine) :
    (ackStep c awf aff reg).2.count (Op.write o m) = 0 := by
  rw [List.count_eq_zero]
  intro hmem
  rcases mem_ackStep_snd hmem with he | he
  · exact hne he
  · exact Op.noConfusion he

theorem count_ackStep_ackLine {c : Nat} {awf aff : Bool} {reg : Registry}
    (h : (lookupA c reg.writers).isSome = true) :
    (ackStep c awf aff reg).2.count (Op.write c ackLine) = 1 := by
  rw [ackStep_ops_of_isSome h]
  by_cases hawf : awf = true
  · rw [if_pos hawf]; simp
  · rw [if_neg hawf]; simp [List.count_cons]

theorem sender_notMem_deliverDead (c : Nat) (wf ff : Nat → Bool) (l : AList) :
    c ∉ deliverDead c wf ff l := fun h => (mem_deliverDead.mp h).2.1 rfl

theorem sender_isSome_after_removeDead {c : Nat} {wf ff : Nat → Bool} {reg : Registry}
    (hc : c ∈ keysOf reg.writers) :
    (lookupA c (removeDead (deliverDead c wf ff reg.writers) reg).writers).isSome = true :=
  lookupA_isSome_of_mem (mem_keysOf_removeDead_writers.mpr
    ⟨hc, sender_notMem_deliverDead c wf ff _⟩)

theorem nodup_keysOf_removeDead_writers {dead : List Nat} {reg : Registry}
    (h : (keysOf reg.writers).Nodup) :
    (keysOf (removeDead dead reg).writers).Nodup := by
  induction dead generalizing reg with
  | nil => exact h
  | cons d ds ih =>
    rw [removeDead_cons]
    exact ih (nodup_keysOf_removeA h)

theorem nodup_keysOf_removeDead_inputs {dead : List Nat} {reg : Registry}
    (h : (keysOf reg.inputs).Nodup) :
    (keysOf (removeDead dead reg).inputs).Nodup := by
  induction dead generalizing reg with
  | nil => exact h
  | cons d ds ih =>
    rw [removeDead_cons]
    exact ih (nodup_keysOf_removeA h)

theorem nodup_step {reg : Registry} {e : Event}
    (hw : (keysOf reg.writers).Nodup) (hi : (keysOf reg.inputs).Nodup) :
    (keysOf (step reg e).reg.writers).Nodup ∧ (keysOf (step reg e).reg.inputs).Nodup := by
  cases e with
  | accept id wtok rtok pf lwf lff =>
    show (keysOf (handle_new_client reg id wtok rtok pf lwf lff).1.writers).Nodup ∧
      (keysOf (handle_new_client reg id wtok rtok pf lwf lff).1.inputs).Nodup
    unfold handle_new_client
    by_cases hpf : pf = true
    · rw [if_pos hpf]; exact ⟨hw, hi⟩
    · rw [if_neg hpf]
      by_cases hlwf : lwf = true
      · rw [if_pos hlwf]; exact ⟨hw, hi⟩
      · rw [if_neg hlwf]
        by_cases hlff : lff = true
        · rw [if_pos hlff]; exact ⟨hw, hi⟩
        · rw [if_neg hlff]
          exact ⟨nodup_keysOf_insertA hw, nodup_keysOf_insertA hi⟩
  | acceptErr => exact ⟨hw, hi⟩
  | acceptEnd => exact ⟨hw, hi⟩
  | line c text wf ff awf aff =>
    show (keysOf (lineStep reg c text wf ff awf aff).1.writers).Nodup ∧
      (keysOf (lineStep reg c text wf ff awf aff).1.inputs).Nodup
    rw [lineStep_fst]
    have h1 := @nodup_keysOf_removeDead_writers (deliverDead c wf ff reg.writers) reg hw
    have h2 := @nodup_keysOf_removeDead_inputs (deliverDead c wf ff reg.writers) reg hi
    rcases ackStep_fst_cases c awf aff
        (removeDead (deliverDead c wf ff reg.writers) reg) with he | he <;> rw [he]
    · exact ⟨h1, h2⟩
    · exact ⟨nodup_keysOf_removeA h1, nodup_keysOf_removeA h2⟩
  | readErr c => exact ⟨nodup_keysOf_removeA hw, nodup_keysOf_removeA hi⟩
  | readEof c => exact ⟨hw, nodup_keysOf_removeA hi⟩
  | inputsNone => exact ⟨hw, hi⟩

theorem reachable_nodup : ∀ (es : List Event),
    (keysOf (runFrom initRegistry es).writers).Nodup ∧
    (keysOf (runFrom initRegistry es).inputs).Nodup := by
  suffices h : ∀ (es : List Event) (reg : Registry),
      (keysOf reg.writers).Nodup → (keysOf reg.inputs).Nodup →
      (keysOf (runFrom reg es).writers).Nodup ∧ (keysOf (runFrom reg es).inputs).Nodup by
    exact fun es => h es initRegistry List.nodup_nil List.nodup_nil
  intro es
  induction es with
  | nil => exact fun reg hw hi => ⟨hw, hi⟩
  | cons e es ih =>
    intro reg hw hi
    exact ih _ (nodup_step hw hi).1 (nodup_step hw hi).2

/-- C3: processing a line `text` from a registered client `c` attempts
exactly one write of `MESSAGE:<c> text\n` to every other registered client
(whatever their number, including zero), never writes that message to `c`
itself, and attempts exactly one `ACK:MESSAGE\n` write to `c`, whatever
the write and flush failures are. -/
theorem claim_C3 : ∀ (reg : Registry) (c : Nat) (text : String)
    (wf ff : Nat → Bool) (awf aff : Bool),
    (keysOf reg.writers).Nodup → c ∈ keysOf reg.writers →
    (∀ o, o ∈ keysOf reg.writers → o ≠ c →
      (lineStep reg c text wf ff awf aff).2.count (Op.write o (messageLine c text)) = 1) ∧
    (lineStep reg c text wf ff awf aff).2.count (Op.write c (messageLine c text)) = 0 ∧
    (lineStep reg c text wf ff awf aff).2.count (Op.write c ackLine) = 1 := by
  intro reg c text wf ff awf aff hnd hc
  rw [lineStep_snd]
  refine ⟨?_, ?_, ?_⟩
  · intro o ho hoc
    rw [List.count_append, count_deliverOps_write_one hnd ho hoc,
      count_ackStep_write_ne (fun he => ?_)]
    injection he with h1 h2
    exact hoc h1
  · rw [List.count_append, count_deliverOps_write_sender,
      count_ackStep_write_ne (fun he => ?_)]
    injection he with h1 h2
    exact messageLine_ne_ackLine c text h2
  · rw [List.count_append, count_ackStep_ackLine (sender_isSome_after_removeDead hc)]
    have hz : (deliverOps c (messageLine c text) wf ff reg.writers).count
        (Op.write c ackLine) = 0 := by
      rw [List.count_eq_zero]
      intro hmem
      exact (deliverOps_target _ hmem).2 rfl
    rw [hz]

/-- Witness for C3: with two clients, a line from client 1 produces one
MESSAGE write to client 2, none to client 1, and one ACK to client 1; with
client 1 alone, the ACK is still attempted. -/
theorem claim_C3_witness :
    (lineStep ⟨[(1, 10), (2, 20)], [(1, 11), (2, 21)]⟩ 1 "hi"
      (fun _ => false) (fun _ => false) false false).2.count
        (Op.write 2 (messageLine 1 "hi")) = 1 ∧
    (lineStep ⟨[(1, 10), (2, 20)], [(1, 11), (2, 21)]⟩ 1 "hi"
      (fun _ => false) (fun _ => false) false false).2.count
        (Op.write 1 (messageLine 1 "hi")) = 0 ∧
    (lineStep ⟨[(1, 10)], [(1, 11)]⟩ 1 "solo"
      (fun _ => false) (fun _ => false) false false).2.count (Op.write 1 ackLine) = 1 :=
  have h2 := claim_C3 ⟨[(1, 10), (2, 20)], [(1, 11), (2, 21)]⟩ 1 "hi"
    (fun _ => false) (fun _ => false) false false (by decide) (by decide)
  have h1 := claim_C3 ⟨[(1, 10)], [(1, 11)]⟩ 1 "solo"
    (fun _ => false) (fun _ => false) false false (by decide) (by decide)
  ⟨h2.1 2 (by decide) (by decide), h2.2.1, h1.2.2⟩

/-- C4: in one line handling with no duplicate keys, (1) the failed
recipients are exactly the non-sender keys whose write or flush fails;
(2) a failed recipient sees exactly the write, or the write then the
flush, and no further operation in the whole call; (3) every non-sender
registered client gets its write attempt regardless of other failures;
(4) the trace is the recipient deliveries followed by the
acknowledgement attempt, which is computed on the registry from which all
failed recipients were already removed; (5) every failed recipient is
absent from both final mappings. -/
theorem claim_C4 : ∀ (reg : Registry) (c : Nat) (text : String)
    (wf ff : Nat → Bool) (awf aff : Bool),
    (keysOf reg.writers).Nodup →
    (∀ o, o ∈ deliverDead c wf ff reg.writers ↔
      (o ∈ keysOf reg.writers ∧ o ≠ c ∧ (wf o || ff o) = true)) ∧
    (∀ o, o ∈ deliverDead c wf ff reg.writers →
      (lineStep reg c text wf ff awf aff).2.filter (targets o) =
        if wf o then [Op.write o (messageLine c text)]
        else [Op.write o (messageLine c text), Op.flush o]) ∧
    (∀ o, o ∈ keysOf reg.writers → o ≠ c →
      Op.write o (messageLine c text) ∈
        deliverOps c (messageLine c text) wf ff reg.writers) ∧
    (lineStep reg c text wf ff awf aff).2 =
      deliverOps c (messageLine c text) wf ff reg.writers ++
        (ackStep c awf aff (removeDead (deliverDead c wf ff reg.writers) reg)).2 ∧
    (∀ o, o ∈ deliverDead c wf ff reg.writers →
      o ∉ keysOf (lineStep reg c text wf ff awf aff).1.writers ∧
      o ∉ keysOf (lineStep reg c text wf ff awf aff).1.inputs) := by
  intro reg c text wf ff awf aff hnd
  refine ⟨fun o => mem_deliverDead, ?_, fun o ho hoc => write_mem_deliverOps ho hoc,
    lineStep_snd reg c text wf ff awf aff, ?_⟩
  · intro o ho
    rcases mem_deliverDead.mp ho with ⟨hok, hoc, hfail⟩
    rw [lineStep_snd, List.filter_append, filter_deliverOps hnd hok hoc]
    have hack : (ackStep c awf aff
        (removeDead (deliverDead c wf ff reg.writers) reg)).2.filter (targets o) = [] := by
      rw [List.filter_eq_nil_iff]
      intro op hop
      rcases mem_ackStep_snd hop with rfl | rfl
      · simp only [targets, opTarget, beq_iff_eq]
        exact fun h => hoc h.symm
      · simp only [targets, opTarget, beq_iff_eq]
        exact fun h => hoc h.symm
    rw [hack, List.append_nil]
  · intro o ho
    have hno1 : o ∉ keysOf
        (removeDead (deliverDead c wf ff reg.writers) reg).writers := by
      intro hm
      exact (mem_keysOf_removeDead_writers.mp hm).2 ho
    have hno2 : o ∉ keysOf
        (removeDead (deliverDead c wf ff reg.writers) reg).inputs := by
      intro hm
      exact (mem_keysOf_removeDead_inputs.mp hm).2 ho
    rw [lineStep_fst]
    rcases ackStep_fst_cases c awf aff
        (removeDead (deliverDead c wf ff reg.writers) reg) with he | he <;> rw [he]
    · exact ⟨hno1, hno2⟩
    · constructor
      · intro hm
        exact hno1 (mem_keysOf_removeA.mp hm).1
      · intro hm
        exact hno2 (mem_keysOf_removeA.mp hm).1

/-- Witness for C4: client 2's write fails; it sees exactly one write and
nothing more, client 3 is still attempted, and client 2 is gone from both
final mappings. -/
theorem claim_C4_witness :
    2 ∈ deliverDead 1 (fun i => i == 2) (fun _ => false)
      [(1, 10), (2, 20), (3, 30)] ∧
    (lineStep ⟨[(1, 10), (2, 20), (3, 30)], [(1, 11), (2, 21), (3, 31)]⟩ 1 "hi"
      (fun i => i == 2) (fun _ => false) false false).2.filter (targets 2) =
        [Op.write 2 (messageLine 1 "hi")] ∧
    Op.write 3 (messageLine 1 "hi") ∈
      deliverOps 1 (messageLine 1 "hi") (fun i => i == 2) (fun _ => false)
        [(1, 10), (2, 20), (3, 30)] ∧
    2 ∉ keysOf (lineStep ⟨[(1, 10), (2, 20), (3, 30)], [(1, 11), (2, 21), (3, 31)]⟩ 1 "hi"
      (fun i => i == 2) (fun _ => false) false false).1.writers :=
  have h := claim_C4 ⟨[(1, 10), (2, 20), (3, 30)], [(1, 11), (2, 21), (3, 31)]⟩ 1 "hi"
    (fun i => i == 2) (fun _ => false) false false (by decide)
  have hd : 2 ∈ deliverDead 1 (fun i => i == 2) (fun _ => false)
      [(1, 10), (2, 20), (3, 30)] := (h.1 2).mpr (by decide)
  ⟨hd, h.2.1 2 hd, h.2.2.1 3 (by decide) (by decide), (h.2.2.2.2 2 hd).1⟩

/-- C6: in a state satisfying the one-sided invariant, the sender of a
line-ready event is never among the failed recipients of its own
broadcast, the ACK write to it is attempted exactly once, and if the ACK
write or flush fails the sender is removed from both mappings. -/
theorem claim_C6 : ∀ (reg : Registry) (c : Nat) (text : String)
    (wf ff : Nat → Bool) (awf aff : Bool),
    InputsSubset reg → c ∈ keysOf reg.inputs →
    c ∉ deliverDead c wf ff reg.writers ∧
    (lineStep reg c text wf ff awf aff).2.count (Op.write c ackLine) = 1 ∧
    ((awf || aff) = true →
      c ∉ keysOf (lineStep reg c text wf ff awf aff).1.writers ∧
      c ∉ keysOf (lineStep reg c text wf ff awf aff).1.inputs) := by
  intro reg c text wf ff awf aff hsub hcin
  have hc : c ∈ keysOf reg.writers := hsub c hcin
  refine ⟨sender_notMem_deliverDead c wf ff _, ?_, ?_⟩
  · rw [lineStep_snd, List.count_append,
      count_ackStep_ackLine (sender_isSome_after_removeDead hc)]
    have hz : (deliverOps c (messageLine c text) wf ff reg.writers).count
        (Op.write c ackLine) = 0 := by
      rw [List.count_eq_zero]
      intro hmem
      exact (deliverOps_target _ hmem).2 rfl
    rw [hz]
  · intro hfail
    rw [lineStep_fst,
      ackStep_fst_of_fail (sender_isSome_after_removeDead hc) hfail]
    constructor
    · intro hm
      exact (mem_keysOf_removeA.mp hm).2 rfl
    · intro hm
      exact (mem_keysOf_removeA.mp hm).2 rfl

/-- Witness for C6: a line from client 1 with a failing ACK flush removes
client 1 from both mappings, after exactly one attempted ACK write. -/
theorem claim_C6_witness :
    (lineStep ⟨[(1, 10), (2, 20)], [(1, 11), (2, 21)]⟩ 1 "hi"
      (fun _ => false) (fun _ => false) false true).2.count (Op.write 1 ackLine) = 1 ∧
    1 ∉ keysOf (lineStep ⟨[(1, 10), (2, 20)], [(1, 11), (2, 21)]⟩ 1 "hi"
      (fun _ => false) (fun _ => false) false true).1.writers ∧
    1 ∉ keysOf (lineStep ⟨[(1, 10), (2, 20)], [(1, 11), (2, 21)]⟩ 1 "hi"
      (fun _ => false) (fun _ => false) false true).1.inputs :=
  have h := claim_C6 ⟨[(1, 10), (2, 20)], [(1, 11), (2, 21)]⟩ 1 "hi"
    (fun _ => false) (fun _ => false) false true
    (by unfold InputsSubset; decide) (by decide)
  have hr := h.2.2 (by decide)
  ⟨h.2.1, hr.1, hr.2⟩

end TB
